import Mathlib

/-!
Shallow embedding of `archai/nas/finalizers.py` (class `Finalizers`).

The file walks a live model (model → cells → nodes → edges), asks each op to
finalize itself into a descriptor together with an optional rank, and applies
a top-k selection bounded by `max_final_edges` to the ranked ("optional")
edges of every node.

Modelling decisions:
* An op's `finalize()` result is external data (the op library is out of
  scope), so a live `Op` simply carries the pair it would return: a
  descriptor and an optional rank.  Ranks are Python floats; they are
  modelled as integers (any linearly ordered numeric type works, the code
  only compares them).
* Python's `list.sort(key=..., reverse=True)` is a stable sort; it is
  embedded as `List.mergeSort` (the stable sort of the Lean core library)
  with the comparison `b.rank ≤ a.rank`, which puts higher ranks first and
  keeps ties in input order exactly as CPython does.
* `finalize_model`'s device bookkeeping (`model.cpu()`, the `assert
  model.device_type() == 'cpu'`, `model.to(original, non_blocking=True)`)
  and every `finalize()` call are recorded in an event trace, in Python's
  left-to-right evaluation order (keyword arguments of a call are evaluated
  in source order).  A failed assert aborts: the run returns `none`.
-/

/-- Descriptor returned by an op's `finalize()`; opaque here, identified by a tag. -/
structure OpDesc where
  tag : Nat
deriving DecidableEq, Repr

/-- A live operation: the pair its `finalize()` call would return. -/
structure Op where
  fin_desc : OpDesc
  fin_rank : Option Int
deriving DecidableEq, Repr

/-- `op.finalize()` : returns (descriptor, rank-or-None). -/
def Op.finalize (op : Op) : OpDesc × Option Int :=
  (op.fin_desc, op.fin_rank)

/-- A live edge: its underlying op and its recorded input ids (`edge.input_ids`). -/
structure Edge where
  _op : Op
  input_ids : List Nat
deriving DecidableEq, Repr

/-- `EdgeDesc(op_desc, input_ids)` from `archai.nas.model_desc`:
a record of the finalized op descriptor and the input ids. -/
structure EdgeDesc where
  op_desc : OpDesc
  input_ids : List Nat
deriving DecidableEq, Repr

/-- `NodeDesc(edges)`: the ordered list of retained edge descriptors. -/
structure NodeDesc where
  edges : List EdgeDesc
deriving DecidableEq, Repr

/-- Cell metadata carried by the live cell's descriptor (`cell.desc`);
the fields `finalize_cell` reads. -/
structure CellDescMeta where
  cell_type : Nat
  id : Nat
  template_cell : Nat
  max_final_edges : Nat
  node_ch_out : Nat
deriving DecidableEq, Repr

/-- A live cell: its node sequence (`cell.dag`, each node an ordered list of
edges), its boundary ops, its post op, and its descriptor metadata. -/
structure Cell where
  dag : List (List Edge)
  s0_op : Op
  s1_op : Op
  post_op : Op
  desc : CellDescMeta
deriving DecidableEq, Repr

/-- `CellDesc(...)` as constructed by `finalize_cell`. -/
structure CellDesc where
  cell_type : Nat
  id : Nat
  nodes : List NodeDesc
  s0_op : OpDesc
  s1_op : OpDesc
  template_cell : Nat
  max_final_edges : Nat
  node_ch_out : Nat
  post_op : OpDesc
deriving DecidableEq, Repr

/-- Model metadata carried by the live model's descriptor (`model.desc`);
the fields `finalize_model` reads.  `aux_tower_descs` and `params` are opaque
payloads, identified by tags. -/
structure ModelDescMeta where
  ds_ch : Nat
  n_classes : Nat
  aux_tower_descs : List Nat
  params : Nat
deriving DecidableEq, Repr

/-- A live model: its device (`model.device_type()`), cells, global ops and
descriptor metadata. -/
structure Model where
  device : String
  cells : List Cell
  stem0_op : Op
  stem1_op : Op
  pool_op : Op
  logits_op : Op
  desc : ModelDescMeta
deriving DecidableEq, Repr

/-- `ModelDesc(...)` as constructed by `finalize_model`. -/
structure ModelDesc where
  stem0_op : OpDesc
  stem1_op : OpDesc
  pool_op : OpDesc
  ds_ch : Nat
  n_classes : Nat
  cell_descs : List CellDesc
  aux_tower_descs : List Nat
  logits_op : OpDesc
  params : Nat
deriving DecidableEq, Repr

/-- Observable actions of `finalize_model`, in execution order: device moves
(`model.cpu()` is a blocking move to "cpu"; `model.to(dev, non_blocking=True)`
is a non-blocking move), the device assertion, and each op `finalize()` call. -/
inductive Event where
  | moveModel (dev : String) (nonBlocking : Bool)
  | assertDevice (dev : String) (ok : Bool)
  | finalizeOp (d : OpDesc)
deriving DecidableEq, Repr

namespace Finalizers

/-- `finalize_edge(edge)`: wraps the op's finalized descriptor with the edge's
input ids; passes the rank through unchanged. -/
def finalize_edge (edge : Edge) : EdgeDesc × Option Int :=
  let fin := edge._op.finalize
  (EdgeDesc.mk fin.1 edge.input_ids, fin.2)

/-- One iteration of the `get_edge_ranks` loop: append the finalized edge to
the required list when its rank is `None`, to the ranked list otherwise. -/
def ger_step (acc : List EdgeDesc × List (EdgeDesc × Int)) (edge : Edge) :
    List EdgeDesc × List (EdgeDesc × Int) :=
  match finalize_edge edge with
  | (edge_desc, none) => (acc.1 ++ [edge_desc], acc.2)
  | (edge_desc, some rank) => (acc.1, acc.2 ++ [(edge_desc, rank)])

/-- `get_edge_ranks(node)`: one pass over the node's edges, appending each
rank-less ("required") edge descriptor to the first list and each ranked
("optional") one, with its rank, to the second — the Python loop verbatim. -/
def get_edge_ranks (node : List Edge) : List EdgeDesc × List (EdgeDesc × Int) :=
  node.foldl ger_step ([], [])

/-- The comparison `edge_desc_ranks.sort(key=lambda d: d[1], reverse=True)`
sorts by: `a` may precede `b` iff `a`'s rank is ≥ `b`'s rank. -/
def rankGE (a b : EdgeDesc × Int) : Bool :=
  decide (b.2 ≤ a.2)

/-- `select_edges(edge_desc_ranks, max_final_edges)`: if there are more ranked
edges than the bound, stable-sort them by rank descending and keep the first
`max_final_edges`; then strip the ranks. -/
def select_edges (edge_desc_ranks : List (EdgeDesc × Int)) (max_final_edges : Nat) :
    List EdgeDesc :=
  if edge_desc_ranks.length > max_final_edges then
    ((edge_desc_ranks.mergeSort rankGE).take max_final_edges).map Prod.fst
  else
    edge_desc_ranks.map Prod.fst

/-- `finalize_node(node, max_final_edges)`: required edges first, then the
selected optional edges. -/
def finalize_node (node : List Edge) (max_final_edges : Nat) : NodeDesc :=
  let pre := get_edge_ranks node
  let ranked_selected := select_edges pre.2 max_final_edges
  NodeDesc.mk (pre.1 ++ ranked_selected)

/-- `finalize_cell(cell)`: the node loop (an accumulating append, as in the
Python), then the `CellDesc(...)` construction copying the cell metadata. -/
def finalize_cell (cell : Cell) : CellDesc :=
  let node_descs :=
    cell.dag.foldl
      (fun acc node => acc ++ [finalize_node node cell.desc.max_final_edges]) []
  { cell_type := cell.desc.cell_type
    id := cell.desc.id
    nodes := node_descs
    s0_op := cell.s0_op.finalize.1
    s1_op := cell.s1_op.finalize.1
    template_cell := cell.desc.template_cell
    max_final_edges := cell.desc.max_final_edges
    node_ch_out := cell.desc.node_ch_out
    post_op := cell.post_op.finalize.1 }

/-- `finalize_cells(model)`: map `finalize_cell` over the model's cells. -/
def finalize_cells (m : Model) : List CellDesc :=
  m.cells.map finalize_cell

/-- `finalize()` events of one node's edge loop, in edge order. -/
def node_trace (node : List Edge) : List Event :=
  node.map (fun e => Event.finalizeOp e._op.fin_desc)

/-- `finalize()` events of `finalize_cell`: every edge of every node in
sequence, then the s0/s1/post boundary ops (the order the `CellDesc(...)`
keyword arguments are evaluated). -/
def cell_trace (cell : Cell) : List Event :=
  (cell.dag.map node_trace).flatten ++
    [Event.finalizeOp cell.s0_op.fin_desc,
     Event.finalizeOp cell.s1_op.fin_desc,
     Event.finalizeOp cell.post_op.fin_desc]

/-- `finalize()` events of `finalize_cells`, cell by cell. -/
def cells_trace (m : Model) : List Event :=
  (m.cells.map cell_trace).flatten

/-- `finalize_model(model, to_cpu, restore_device)`, with its event trace.

Execution order of the Python body: record the original device; if `to_cpu`,
move the model to cpu (blocking); assert the device is cpu (unconditionally —
a failure aborts the run with no result); compute `finalize_cells`; if
`restore_device`, start the non-blocking move back to the original device;
finally evaluate the `ModelDesc(...)` keyword arguments left to right, which
runs `stem0_op.finalize()`, `stem1_op.finalize()`, `pool_op.finalize()` and
`logits_op.finalize()` and copies `ds_ch`, `n_classes`, `aux_tower_descs` and
`params` from `model.desc`. -/
def finalize_model_run (m : Model) (to_cpu restore_device : Bool) :
    List Event × Option ModelDesc :=
  let original := m.device
  let m1 := if to_cpu then { m with device := "cpu" } else m
  let ev0 : List Event := if to_cpu then [Event.moveModel "cpu" false] else []
  let ev1 := ev0 ++ [Event.assertDevice m1.device (decide (m1.device = "cpu"))]
  if m1.device = "cpu" then
    let cell_descs := finalize_cells m1
    let ev2 := ev1 ++ cells_trace m1
    let ev3 := ev2 ++ (if restore_device then [Event.moveModel original true] else [])
    let ev4 := ev3 ++
      [Event.finalizeOp m1.stem0_op.fin_desc,
       Event.finalizeOp m1.stem1_op.fin_desc,
       Event.finalizeOp m1.pool_op.fin_desc,
       Event.finalizeOp m1.logits_op.fin_desc]
    (ev4,
     some { stem0_op := m1.stem0_op.finalize.1
            stem1_op := m1.stem1_op.finalize.1
            pool_op := m1.pool_op.finalize.1
            ds_ch := m1.desc.ds_ch
            n_classes := m1.desc.n_classes
            cell_descs := cell_descs
            aux_tower_descs := m1.desc.aux_tower_descs
            logits_op := m1.logits_op.finalize.1
            params := m1.desc.params })
  else
    (ev1, none)

/-- `finalize_model`'s result: `none` when the cpu assertion failed. -/
def finalize_model (m : Model) (to_cpu restore_device : Bool) : Option ModelDesc :=
  (finalize_model_run m to_cpu restore_device).2

/-- The events `finalize_model` performs, in order. -/
def finalize_model_trace (m : Model) (to_cpu restore_device : Bool) : List Event :=
  (finalize_model_run m to_cpu restore_device).1

/-- The descriptors of the node's rank-less edges, in encounter order
(specification-level restatement of the first component of `get_edge_ranks`). -/
def requiredDescs (node : List Edge) : List EdgeDesc :=
  node.filterMap (fun e =>
    match e._op.fin_rank with
    | none => some (finalize_edge e).1
    | some _ => none)

/-- The (descriptor, rank) pairs of the node's ranked edges, in encounter order
(specification-level restatement of the second component of `get_edge_ranks`). -/
def optionalRanks (node : List Edge) : List (EdgeDesc × Int) :=
  node.filterMap (fun e =>
    match e._op.fin_rank with
    | none => none
    | some r => some ((finalize_edge e).1, r))

/-- The fold of `get_edge_ranks`, started from an arbitrary accumulator,
appends the required-descriptor and optional-rank partitions of the node. -/
theorem get_edge_ranks_go (node : List Edge) :
    ∀ acc : List EdgeDesc × List (EdgeDesc × Int),
      node.foldl ger_step acc
      = (acc.1 ++ requiredDescs node, acc.2 ++ optionalRanks node) := by
  induction node with
  | nil => intro acc; simp [requiredDescs, optionalRanks]
  | cons e es ih =>
    intro acc
    rw [List.foldl_cons]
    cases h : e._op.fin_rank with
    | none =>
      have hs : ger_step acc e = (acc.1 ++ [(finalize_edge e).1], acc.2) := by
        simp [ger_step, finalize_edge, Op.finalize, h]
      rw [hs, ih]
      simp [requiredDescs, optionalRanks, List.filterMap_cons, h, finalize_edge,
        Op.finalize]
    | some r =>
      have hs : ger_step acc e = (acc.1, acc.2 ++ [((finalize_edge e).1, r)]) := by
        simp [ger_step, finalize_edge, Op.finalize, h]
      rw [hs, ih]
      simp [requiredDescs, optionalRanks, List.filterMap_cons, h, finalize_edge,
        Op.finalize]

/-- `get_edge_ranks` returns exactly the required-edge descriptors (in
encounter order) and the optional (descriptor, rank) pairs (in encounter
order). -/
theorem get_edge_ranks_eq (node : List Edge) :
    get_edge_ranks node = (requiredDescs node, optionalRanks node) := by
  rw [get_edge_ranks, get_edge_ranks_go]
  simp

/-- `finalize_node` decomposes as required edges followed by the selection
over the optional edges. -/
theorem finalize_node_eq (node : List Edge) (k : Nat) :
    finalize_node node k
      = NodeDesc.mk (requiredDescs node ++ select_edges (optionalRanks node) k) := by
  rw [finalize_node, get_edge_ranks_eq]

/-- An accumulating append-fold is a map. -/
theorem foldl_append_singleton {α β : Type} (f : α → β) (l : List α) :
    ∀ acc : List β, l.foldl (fun a x => a ++ [f x]) acc = acc ++ l.map f := by
  induction l with
  | nil => intro acc; simp
  | cons x xs ih => intro acc; simp [ih]

/-- The node loop of `finalize_cell` maps `finalize_node` over the dag. -/
theorem finalize_cell_nodes (cell : Cell) :
    (finalize_cell cell).nodes
      = cell.dag.map (fun node => finalize_node node cell.desc.max_final_edges) := by
  rw [finalize_cell]
  simp [foldl_append_singleton]

/-- The descending-rank comparison is transitive. -/
theorem rankGE_trans (a b c : EdgeDesc × Int) :
    rankGE a b → rankGE b c → rankGE a c := by
  simp only [rankGE, decide_eq_true_eq]
  exact fun h1 h2 => le_trans h2 h1

/-- The descending-rank comparison is total. -/
theorem rankGE_total (a b : EdgeDesc × Int) : rankGE a b || rankGE b a := by
  simp only [rankGE, Bool.or_eq_true, decide_eq_true_eq]
  exact le_total b.2 a.2

/-- Stability of the embedded sort: the subsequence of pairs carrying any
fixed rank `v` is unchanged by the descending-rank `mergeSort`. -/
theorem mergeSort_filter_rank (ers : List (EdgeDesc × Int)) (v : Int) :
    (ers.mergeSort rankGE).filter (fun x => x.2 == v)
      = ers.filter (fun x => x.2 == v) := by
  have hpw : (ers.filter (fun x => x.2 == v)).Pairwise (fun a b => rankGE a b) := by
    apply List.pairwise_of_forall_mem_list
    intro a ha b hb
    have ha' := List.of_mem_filter ha
    have hb' := List.of_mem_filter hb
    simp only [beq_iff_eq] at ha' hb'
    simp [rankGE, ha', hb']
  have h1 : List.Sublist (ers.filter (fun x => x.2 == v)) (ers.mergeSort rankGE) :=
    List.sublist_mergeSort rankGE_trans rankGE_total hpw (List.filter_sublist ers)
  have h2 : List.Sublist ((ers.filter (fun x => x.2 == v)).filter (fun x => x.2 == v))
      ((ers.mergeSort rankGE).filter (fun x => x.2 == v)) :=
    h1.filter _
  rw [List.filter_filter] at h2
  simp only [Bool.and_self] at h2
  have h3 : List.Perm ((ers.mergeSort rankGE).filter (fun x => x.2 == v))
      (ers.filter (fun x => x.2 == v)) :=
    (ers.mergeSort_perm rankGE).filter _
  exact (h2.eq_of_length h3.length_eq.symm).symm

/-- `select_edges` keeps `min (input length) (bound)` ranked edges. -/
theorem select_edges_length (ers : List (EdgeDesc × Int)) (k : Nat) :
    (select_edges ers k).length = min ers.length k := by
  rw [select_edges]
  split
  · simp only [List.length_map, List.length_take, List.length_mergeSort]
    omega
  · simp only [List.length_map]
    omega

/-- Everything `select_edges` returns is the descriptor of one of the ranked
input pairs. -/
theorem select_edges_mem (ers : List (EdgeDesc × Int)) (k : Nat) :
    ∀ d ∈ select_edges ers k, d ∈ ers.map Prod.fst := by
  intro d hd
  rw [select_edges] at hd
  split at hd
  · obtain ⟨x, hx, hxd⟩ := List.mem_map.mp hd
    have hx' : x ∈ ers.mergeSort rankGE := List.mem_of_mem_take hx
    exact List.mem_map.mpr ⟨x, List.mem_mergeSort.mp hx', hxd⟩
  · exact hd

/- Concrete fixtures used by witnesses and counterexamples. -/

/-- A required (rank-less) edge with tag `i`. -/
def edR (i : Nat) : Edge := ⟨⟨⟨i⟩, none⟩, [i]⟩

/-- An optional edge with tag `i` and rank `r`. -/
def edO (i : Nat) (r : Int) : Edge := ⟨⟨⟨i⟩, some r⟩, [i]⟩

/-- The spec's example node: ranks `[None, 3, 1, 3, None]`. -/
def nodeEx : List Edge := [edR 0, edO 1 3, edO 2 1, edO 3 3, edR 4]

/-- Ranked pairs with a tie between the first and the last entry. -/
def ersEx : List (EdgeDesc × Int) :=
  [(⟨⟨1⟩, [1]⟩, 3), (⟨⟨2⟩, [2]⟩, 1), (⟨⟨3⟩, [3]⟩, 3)]

/-- Two optional edges whose input order is ascending in rank. -/
def nodeAsc : List Edge := [edO 0 1, edO 1 3]

/-- Two required edges and no optional edge. -/
def nodeReq : List Edge := [edR 0, edR 1]

/-- A model on device `"cuda"` with no cells. -/
def modelGpu : Model :=
  { device := "cuda", cells := [],
    stem0_op := ⟨⟨10⟩, none⟩, stem1_op := ⟨⟨11⟩, none⟩,
    pool_op := ⟨⟨12⟩, none⟩, logits_op := ⟨⟨13⟩, none⟩,
    desc := ⟨7, 9, [1, 2], 5⟩ }

/-- A model already on device `"cpu"` with no cells. -/
def modelCpu : Model :=
  { device := "cpu", cells := [],
    stem0_op := ⟨⟨10⟩, none⟩, stem1_op := ⟨⟨11⟩, none⟩,
    pool_op := ⟨⟨12⟩, none⟩, logits_op := ⟨⟨13⟩, none⟩,
    desc := ⟨7, 9, [1, 2], 5⟩ }

/-- C2: in the NodeDescriptor returned by `finalize_node`, every REQUIRED edge
(rank absent) appears before every OPTIONAL edge (rank present): the edge list
is exactly the required-edge descriptors in their original encounter order,
followed by a block drawn entirely from the optional edges. -/
theorem finalize_node_required_first (node : List Edge) (k : Nat) :
    (finalize_node node k).edges
        = requiredDescs node ++ select_edges (optionalRanks node) k ∧
    ∀ d ∈ select_edges (optionalRanks node) k, d ∈ (optionalRanks node).map Prod.fst := by
  constructor
  · rw [finalize_node_eq]
  · exact select_edges_mem (optionalRanks node) k

/-- C2 witness: on the spec's example node with bound 2 the decomposition is
the concrete list `[edge0, edge4] ++ [edge1, edge3]`. -/
theorem finalize_node_required_first_witness :
    (finalize_node nodeEx 2).edges
      = requiredDescs nodeEx ++ select_edges (optionalRanks nodeEx) 2 :=
  (finalize_node_required_first nodeEx 2).1

/-- C3: the optional part of `finalize_node`'s output has at most
`max_final_edges` edges; when the input optional count is within the bound,
none is dropped; the output is the required edges plus the optional part. -/
theorem finalize_node_bounded (node : List Edge) (k : Nat) :
    (select_edges (optionalRanks node) k).length ≤ k ∧
    ((optionalRanks node).length ≤ k →
      (select_edges (optionalRanks node) k).length = (optionalRanks node).length) ∧
    (finalize_node node k).edges.length
        = (requiredDescs node).length + (select_edges (optionalRanks node) k).length := by
  refine ⟨?_, ?_, ?_⟩
  · rw [select_edges_length]; omega
  · intro h; rw [select_edges_length]; omega
  · rw [finalize_node_eq]; exact List.length_append _ _

/-- C3 witness: on the spec's example node with bound 2, the optional part has
exactly 2 edges (3 optional edges in, bound 2), and the total is 2 + 2. -/
theorem finalize_node_bounded_witness :
    (select_edges (optionalRanks nodeEx) 2).length ≤ 2 ∧
    ((optionalRanks nodeEx).length ≤ 2 →
      (select_edges (optionalRanks nodeEx) 2).length = (optionalRanks nodeEx).length) ∧
    (finalize_node nodeEx 2).edges.length
        = (requiredDescs nodeEx).length + (select_edges (optionalRanks nodeEx) 2).length :=
  finalize_node_bounded nodeEx 2

/-- C6: when the bound is smaller than the number of REQUIRED edges alone,
`finalize_node` still returns (no failure is possible: it is a total
function), every required edge is retained at the front, and the output
exceeds the bound. -/
theorem finalize_node_bound_only_optional (node : List Edge) (k : Nat)
    (h : k < (requiredDescs node).length) :
    k < (finalize_node node k).edges.length ∧
    ∃ rest, (finalize_node node k).edges = requiredDescs node ++ rest := by
  constructor
  · rw [finalize_node_eq]
    simp only [List.length_append]
    omega
  · exact ⟨select_edges (optionalRanks node) k, by rw [finalize_node_eq]⟩

/-- C6 witness: a node with two required edges and bound 1 yields 2 > 1 edges,
required edges first. -/
theorem finalize_node_bound_only_optional_witness :
    1 < (finalize_node nodeReq 1).edges.length ∧
    ∃ rest, (finalize_node nodeReq 1).edges = requiredDescs nodeReq ++ rest :=
  finalize_node_bound_only_optional nodeReq 1 (by decide)

/-- C7: `finalize_cells` maps `finalize_cell` positionally over the model's
cells; `finalize_cell` maps `finalize_node` positionally over the cell's dag
(with the cell's own `max_final_edges`); and the edge pass of a node yields
the required and optional partitions in original edge order. -/
theorem finalize_order_preservation (m : Model) (c : Cell) (node : List Edge)
    (i j : Nat) :
    (finalize_cells m)[i]? = (m.cells[i]?).map finalize_cell ∧
    (finalize_cell c).nodes[j]?
        = (c.dag[j]?).map (fun node => finalize_node node c.desc.max_final_edges) ∧
    get_edge_ranks node = (requiredDescs node, optionalRanks node) := by
  refine ⟨?_, ?_, get_edge_ranks_eq node⟩
  · rw [finalize_cells, List.getElem?_map]
  · rw [finalize_cell_nodes, List.getElem?_map]

/-- C8: when the optional edge count is within the bound (including exactly
equal), no sorting happens: the optional edges keep their original encounter
order in the NodeDescriptor, even if that order disagrees with descending
rank. -/
theorem finalize_node_no_reorder (node : List Edge) (k : Nat)
    (h : (optionalRanks node).length ≤ k) :
    (finalize_node node k).edges
      = requiredDescs node ++ (optionalRanks node).map Prod.fst := by
  rw [finalize_node_eq, select_edges, if_neg (by omega)]

/-- C8 witness: two optional edges with ranks `[1, 3]` (ascending, against
descending-rank order) and bound 2 keep their input order. -/
theorem finalize_node_no_reorder_witness :
    (finalize_node nodeAsc 2).edges
      = requiredDescs nodeAsc ++ (optionalRanks nodeAsc).map Prod.fst :=
  finalize_node_no_reorder nodeAsc 2 (by decide)

/-- C1: when the ranked (OPTIONAL) edges exceed the bound, `select_edges`
returns the descriptors of a size-`max_final_edges` selection whose ranks
dominate every discarded rank (the `k` highest ranks of the input multiset),
and within every tie class the retained pairs are an initial segment of the
input's pairs of that rank, in the input's order (the descending sort is
stable). -/
theorem select_edges_topk (ers : List (EdgeDesc × Int)) (k : Nat)
    (h : k < ers.length) :
    ∃ kept dropped : List (EdgeDesc × Int),
      select_edges ers k = kept.map Prod.fst ∧
      kept.length = k ∧
      List.Perm (kept ++ dropped) ers ∧
      (∀ x ∈ kept, ∀ y ∈ dropped, y.2 ≤ x.2) ∧
      kept.Pairwise (fun a b => b.2 ≤ a.2) ∧
      (∀ v : Int, ∃ rest,
        kept.filter (fun x => x.2 == v) ++ rest = ers.filter (fun x => x.2 == v)) := by
  refine ⟨(ers.mergeSort rankGE).take k, (ers.mergeSort rankGE).drop k, ?_, ?_, ?_, ?_, ?_, ?_⟩
  · rw [select_edges, if_pos h]
  · rw [List.length_take, List.length_mergeSort]
    omega
  · rw [List.take_append_drop]
    exact ers.mergeSort_perm rankGE
  · intro x hx y hy
    have hsort := List.sorted_mergeSort rankGE_trans rankGE_total ers
    rw [← List.take_append_drop k (ers.mergeSort rankGE)] at hsort
    have := (List.pairwise_append.mp hsort).2.2 x hx y hy
    simpa [rankGE] using this
  · have hsort := List.sorted_mergeSort rankGE_trans rankGE_total ers
    rw [← List.take_append_drop k (ers.mergeSort rankGE)] at hsort
    have := (List.pairwise_append.mp hsort).1
    exact this.imp (by simp [rankGE])
  · intro v
    refine ⟨((ers.mergeSort rankGE).drop k).filter (fun x => x.2 == v), ?_⟩
    rw [← List.filter_append, List.take_append_drop]
    exact mergeSort_filter_rank ers v

/-- C1 witness: three ranked pairs `[(e1, 3), (e2, 1), (e3, 3)]` with bound 2
(the bound is exceeded), instantiating the top-k/stability conclusion. -/
theorem select_edges_topk_witness :
    ∃ kept dropped : List (EdgeDesc × Int),
      select_edges ersEx 2 = kept.map Prod.fst ∧
      kept.length = 2 ∧
      List.Perm (kept ++ dropped) ersEx ∧
      (∀ x ∈ kept, ∀ y ∈ dropped, y.2 ≤ x.2) ∧
      kept.Pairwise (fun a b => b.2 ≤ a.2) ∧
      (∀ v : Int, ∃ rest,
        kept.filter (fun x => x.2 == v) ++ rest = ersEx.filter (fun x => x.2 == v)) :=
  select_edges_topk ersEx 2 (by decide)

/-- C4 counterexample: on a concrete model (device `"cuda"`, no cells, with
`to_cpu` and `restore_device` both true), the non-blocking restore move is
event 2 of the trace and the `stem0_op.finalize()` call is event 3: a
finalize call is invoked after the restore move begins, contrary to the
claim. -/
theorem finalize_after_restore_cex :
    (finalize_model_trace modelGpu true true)[2]? = some (Event.moveModel "cuda" true) ∧
    (finalize_model_trace modelGpu true true)[3]? = some (Event.finalizeOp ⟨10⟩) := by
  constructor <;> rfl

/-- C4 amended: with `to_cpu` and `restore_device` true, the trace is: the
blocking move to cpu, the (passing) assertion, all cell-level finalize calls
(every edge op and every cell's s0/s1/post ops), then the non-blocking
restore move, and only after it the stem0/stem1/pool/logits finalize calls. -/
theorem finalize_model_trace_order (m : Model) :
    finalize_model_trace m true true
      = [Event.moveModel "cpu" false, Event.assertDevice "cpu" true]
        ++ cells_trace { m with device := "cpu" }
        ++ [Event.moveModel m.device true]
        ++ [Event.finalizeOp m.stem0_op.fin_desc, Event.finalizeOp m.stem1_op.fin_desc,
            Event.finalizeOp m.pool_op.fin_desc, Event.finalizeOp m.logits_op.fin_desc] := by
  rw [finalize_model_trace, finalize_model_run]
  simp

/-- C5 counterexample: on a concrete model resident on `"cuda"`, calling
`finalize_model` with `to_cpu = false` aborts on the device assertion (the
assert is outside the `if to_cpu` block), contrary to the claim that no
residency check happens without the host relocation. -/
theorem finalize_model_assert_cex :
    finalize_model modelGpu false true = none := by
  rfl

/-- C5 amended: the cpu-residency assertion runs unconditionally after the
optional relocation; with `to_cpu = false`, `finalize_model` succeeds exactly
when the model already resides on `"cpu"`. -/
theorem finalize_model_assert_unconditional (m : Model) (rd : Bool) :
    (finalize_model m false rd).isSome = true ↔ m.device = "cpu" := by
  rw [finalize_model, finalize_model_run]
  by_cases hd : m.device = "cpu"
  · simp [hd]
  · simp [hd]

/-- C5 amended witness: a model already on `"cpu"` succeeds with
`to_cpu = false`. -/
theorem finalize_model_assert_unconditional_witness :
    (finalize_model modelCpu false true).isSome = true :=
  (finalize_model_assert_unconditional modelCpu true).mpr rfl

/-- C9: a successful `finalize_model` copies `ds_ch`, `n_classes`, `params`
and the auxiliary-tower descriptors unchanged from the live model's
descriptor, and `finalize_cell` copies `cell_type`, `id`, `template_cell`,
`max_final_edges` and `node_ch_out` unchanged from the live cell's
descriptor. -/
theorem finalize_copies_metadata (m : Model) (tc rd : Bool) (d : ModelDesc)
    (h : finalize_model m tc rd = some d) :
    d.ds_ch = m.desc.ds_ch ∧ d.n_classes = m.desc.n_classes ∧
    d.params = m.desc.params ∧ d.aux_tower_descs = m.desc.aux_tower_descs ∧
    ∀ c : Cell,
      (finalize_cell c).cell_type = c.desc.cell_type ∧
      (finalize_cell c).id = c.desc.id ∧
      (finalize_cell c).template_cell = c.desc.template_cell ∧
      (finalize_cell c).max_final_edges = c.desc.max_final_edges ∧
      (finalize_cell c).node_ch_out = c.desc.node_ch_out := by
  rw [finalize_model, finalize_model_run] at h
  have hcell : ∀ c : Cell,
      (finalize_cell c).cell_type = c.desc.cell_type ∧
      (finalize_cell c).id = c.desc.id ∧
      (finalize_cell c).template_cell = c.desc.template_cell ∧
      (finalize_cell c).max_final_edges = c.desc.max_final_edges ∧
      (finalize_cell c).node_ch_out = c.desc.node_ch_out := by
    intro c
    rw [finalize_cell]
    exact ⟨rfl, rfl, rfl, rfl, rfl⟩
  by_cases hd : (if tc then { m with device := "cpu" } else m).device = "cpu"
  · rw [if_pos hd] at h
    simp only [Option.some.injEq] at h
    subst h
    refine ⟨?_, ?_, ?_, ?_, hcell⟩ <;> cases tc <;> rfl
  · rw [if_neg hd] at h
    exact absurd h (by simp)

/-- The descriptor `finalize_model` produces for `modelCpu`. -/
def modelCpuDesc : ModelDesc :=
  { stem0_op := ⟨10⟩, stem1_op := ⟨11⟩, pool_op := ⟨12⟩, ds_ch := 7, n_classes := 9,
    cell_descs := [], aux_tower_descs := [1, 2], logits_op := ⟨13⟩, params := 5 }

/-- C9 witness: the concrete cpu-resident model succeeds with descriptor
`modelCpuDesc`, whose `ds_ch` is the model descriptor's `ds_ch`. -/
theorem finalize_copies_metadata_witness :
    modelCpuDesc.ds_ch = modelCpu.desc.ds_ch :=
  (finalize_copies_metadata modelCpu true true modelCpuDesc (by rfl)).1

end Finalizers
